import Mathlib

/-!
Shallow embedding of the ionisation engine of HydroCodeSpherical1D
(`Bondi.hpp`), together with proofs of the specified properties.

Machine `double` arithmetic is modelled by real arithmetic.  The
configuration constants (`UNIT_DENSITY_IN_SI`, `HYDROGEN_MASS_IN_SI`,
`UNIT_LENGTH_IN_SI`, ...) are substituted at build time in the source;
here they are explicit real parameters (`udens`, `hmass`, `ulen`).
-/

noncomputable section

open Classical

namespace HydroBondi

/-- One radial shell of the grid (`Cell.hpp` fields used by `Bondi.hpp`;
the leading underscores of the C++ field names are dropped). -/
structure Cell where
  lowlim : ℝ
  uplim : ℝ
  midpoint : ℝ
  V : ℝ
  dt : ℝ
  rho : ℝ
  u : ℝ
  P : ℝ
  sigma : ℝ
  alphaB : ℝ
  nfac : ℝ
  nfac_MC : ℝ
  jmean : ℝ
  last_jmean : ℝ
  length : ℝ
  ifrac : ℝ
  ft0 : ℝ

/-- One element of the photon packet storage bank (`Bank.hpp`). -/
structure BankEntry where
  currentCell : ℤ
  currentTaurem : ℝ
  currentDistance : ℝ
  futureCell : ℤ
  futureTaurem : ℝ
  futureDistance : ℝ

/-- `UPDATE_ION` from `Bondi.hpp`: closed-form update of the ionised
fraction over one timestep `delta`.  `udens` and `hmass` stand for the
configuration constants `UNIT_DENSITY_IN_SI` and `HYDROGEN_MASS_IN_SI`. -/
def UPDATE_ION (udens hmass : ℝ) (c : Cell) (delta : ℝ) : Cell :=
  let ConB := c.alphaB * (c.rho * (udens / hmass))
  if c.nfac_MC = 1 then
    let ifrac := c.ft0 + c.jmean * delta
    if ifrac > 1 then
      { c with nfac_MC := 1e-8, ifrac := 1 - 1e-8, ft0 := 1 - 1e-8 }
    else
      { c with ifrac := ifrac, nfac_MC := 1 - ifrac, ft0 := ifrac }
  else
    if c.jmean = 0 ∨ c.nfac_MC = 0 then
      let ifrac := 1 / (1 / c.ft0 + ConB * delta)
      { c with ifrac := ifrac, nfac_MC := 1 - ifrac, ft0 := ifrac }
    else
      let IoR := c.jmean / ConB
      let root := Real.sqrt (IoR * (IoR + 4))
      let arg := (2 * c.ft0 + IoR) / root
      let arg2 := 0.5 * ConB * root * delta
      let ifrac :=
        0.5 * root * ((arg + Real.tanh arg2) / (1 + arg * Real.tanh arg2)) -
          0.5 * IoR
      { c with ifrac := ifrac, nfac_MC := 1 - ifrac, ft0 := ifrac }

/-- Hyperbolic tangent of a nonnegative real lies in `[0, 1)`. -/
lemma tanh_mem_Ico (x : ℝ) (hx : 0 ≤ x) : 0 ≤ Real.tanh x ∧ Real.tanh x < 1 := by
  rw [Real.tanh_eq_sinh_div_cosh]
  have hc : 0 < Real.cosh x := Real.cosh_pos x
  constructor
  · exact div_nonneg (Real.sinh_nonneg_iff.mpr hx) hc.le
  · rw [div_lt_one hc]
    exact Real.sinh_lt_cosh x

/-- Core bound for the Riccati branch of `UPDATE_ION`: with positive
recombination and illumination rates and an ionised fraction strictly
between 0 and 1, the tanh closed-form step stays inside `[0, 1]`. -/
lemma riccati_bounds (i r t f : ℝ) (hi : 0 < i) (hr : r = Real.sqrt (i * (i + 4)))
    (ht0 : 0 ≤ t) (ht1 : t < 1) (hf0 : 0 < f) (hf1 : f < 1) :
    0 ≤ 0.5 * r * (((2 * f + i) / r + t) / (1 + (2 * f + i) / r * t)) - 0.5 * i ∧
      0.5 * r * (((2 * f + i) / r + t) / (1 + (2 * f + i) / r * t)) - 0.5 * i ≤ 1 := by
  have hiarg : 0 < i * (i + 4) := mul_pos hi (by linarith)
  have hr0 : 0 < r := hr ▸ Real.sqrt_pos.mpr hiarg
  have hrsq : r * r = i * (i + 4) := by
    rw [hr]; exact Real.mul_self_sqrt hiarg.le
  have hri : i ≤ r := by nlinarith [sq_nonneg (r - i)]
  have ha0 : 0 < (2 * f + i) / r := div_pos (by linarith) hr0
  have hD : 0 < 1 + (2 * f + i) / r * t := by
    have := mul_nonneg ha0.le ht0
    linarith
  have hkey : 0.5 * r * (((2 * f + i) / r + t) / (1 + (2 * f + i) / r * t)) - 0.5 * i =
      (r * ((2 * f + i) / r + t) - i * (1 + (2 * f + i) / r * t)) /
        (2 * (1 + (2 * f + i) / r * t)) := by
    field_simp
    ring
  have hcancel : (2 * f + i) / r * r = 2 * f + i := div_mul_cancel₀ _ hr0.ne'
  constructor
  · rw [hkey]
    apply div_nonneg _ (by linarith)
    have hnum : 0 ≤ (r * ((2 * f + i) / r + t) - i * (1 + (2 * f + i) / r * t)) * r := by
      have hexp : (r * ((2 * f + i) / r + t) - i * (1 + (2 * f + i) / r * t)) * r =
          (2 * f + i) * r + r * r * t - i * r - i * (2 * f + i) * t := by
        field_simp
        ring
      rw [hexp, hrsq]
      nlinarith [mul_pos hf0 hr0, mul_nonneg (mul_nonneg hi.le ht0) (by linarith : (0:ℝ) ≤ 2 - 2 * f)]
    exact (mul_nonneg_iff_of_pos_right hr0).mp hnum
  · rw [hkey, div_le_one (by linarith)]
    have hti : t * i ≤ i := by nlinarith
    have hnum : (2 * (1 + (2 * f + i) / r * t) -
        (r * ((2 * f + i) / r + t) - i * (1 + (2 * f + i) / r * t))) * r ≥ 0 := by
      have hexp : (2 * (1 + (2 * f + i) / r * t) -
          (r * ((2 * f + i) / r + t) - i * (1 + (2 * f + i) / r * t))) * r =
          2 * r + (2 + i) * ((2 * f + i) * t) - (2 * f + i) * r - r * r * t + i * r := by
        field_simp
        ring
      rw [hexp, hrsq]
      nlinarith [mul_nonneg (mul_nonneg ht0 hf0.le) hi.le,
        mul_nonneg (by linarith : (0:ℝ) ≤ 1 - f) (by linarith : (0:ℝ) ≤ r - t * i),
        mul_nonneg ht0 hf0.le]
    have := (mul_nonneg_iff_of_pos_right hr0).mp hnum
    linarith

/-- A cell with all fields zero, used as base for concrete instances. -/
def cell0 : Cell := ⟨0, 0, 0, 0, 0, 0, 0, 0, 0, 0, 0, 0, 0, 0, 0, 0, 0⟩

/-- Every branch of `UPDATE_ION` stores the new ionised fraction both in
`ifrac` and in the carried state `ft0`. -/
lemma UPDATE_ION_ifrac_eq_ft0 (udens hmass delta : ℝ) (c : Cell) :
    (UPDATE_ION udens hmass c delta).ifrac = (UPDATE_ION udens hmass c delta).ft0 := by
  simp only [UPDATE_ION]
  split_ifs <;> rfl

/-- C1: after any `UPDATE_ION` call whose inputs satisfy `0 ≤ ft0 ≤ 1`,
`ft0 = 1 - nfac_MC`, `jmean ≥ 0`, `alphaB·n_H ≥ 0` and `delta ≥ 0`, the
cell satisfies `nfac_MC + ifrac = 1` exactly and both `nfac_MC` and
`ifrac` lie in `[0, 1]`. -/
theorem C1_update_ion_unit_interval (udens hmass delta : ℝ) (c : Cell)
    (hft0 : 0 ≤ c.ft0) (hft1 : c.ft0 ≤ 1) (hcons : c.ft0 = 1 - c.nfac_MC)
    (hj : 0 ≤ c.jmean) (hC : 0 ≤ c.alphaB * (c.rho * (udens / hmass)))
    (hd : 0 ≤ delta) :
    (UPDATE_ION udens hmass c delta).nfac_MC + (UPDATE_ION udens hmass c delta).ifrac = 1 ∧
      0 ≤ (UPDATE_ION udens hmass c delta).nfac_MC ∧
      (UPDATE_ION udens hmass c delta).nfac_MC ≤ 1 ∧
      0 ≤ (UPDATE_ION udens hmass c delta).ifrac ∧
      (UPDATE_ION udens hmass c delta).ifrac ≤ 1 := by
  simp only [UPDATE_ION]
  split_ifs with h1 h2 h3
  · -- fully neutral cell, growth overshoots 1
    refine ⟨by norm_num, by norm_num, by norm_num, by norm_num, by norm_num⟩
  · -- fully neutral cell, growth stays at most 1
    have hft00 : c.ft0 = 0 := by rw [hcons, h1]; ring
    have hx0 : 0 ≤ c.ft0 + c.jmean * delta := by
      have := mul_nonneg hj hd; linarith
    have hx1 : c.ft0 + c.jmean * delta ≤ 1 := not_lt.mp h2
    exact ⟨by ring, by simp only; linarith, by simp only; linarith, hx0, hx1⟩
  · -- recombination-only branch
    have hf0 : 0 < c.ft0 := by
      rcases hft0.lt_or_eq with h | h
      · exact h
      · exact absurd (by rw [hcons] at h; linarith : c.nfac_MC = 1) h1
    have h1f : 1 ≤ 1 / c.ft0 := by rw [le_div_iff₀ hf0]; linarith
    have hCd : 0 ≤ c.alphaB * (c.rho * (udens / hmass)) * delta := mul_nonneg hC hd
    have hden : 0 < 1 / c.ft0 + c.alphaB * (c.rho * (udens / hmass)) * delta := by linarith
    have hpos : 0 < 1 / (1 / c.ft0 + c.alphaB * (c.rho * (udens / hmass)) * delta) :=
      one_div_pos.mpr hden
    have hle : 1 / (1 / c.ft0 + c.alphaB * (c.rho * (udens / hmass)) * delta) ≤ 1 := by
      rw [div_le_one hden]; linarith
    exact ⟨by ring, by simp only; linarith, by simp only; linarith, hpos.le, hle⟩
  · -- general Riccati branch
    push_neg at h3
    obtain ⟨hj0, hnf0⟩ := h3
    have hjpos : 0 < c.jmean := hj.lt_of_ne (Ne.symm hj0)
    have hnfge : 0 ≤ c.nfac_MC := by linarith [hcons ▸ hft1]
    have hnfpos : 0 < c.nfac_MC := hnfge.lt_of_ne (Ne.symm hnf0)
    have hnfle : c.nfac_MC ≤ 1 := by linarith [hcons ▸ hft0]
    have hnflt : c.nfac_MC < 1 := hnfle.lt_of_ne h1
    have hf0 : 0 < c.ft0 := by rw [hcons]; linarith
    have hf1 : c.ft0 < 1 := by rw [hcons]; linarith
    set C := c.alphaB * (c.rho * (udens / hmass)) with hCdef
    rcases hC.eq_or_lt with hC0 | hCpos
    · -- degenerate recombination rate: all quotients collapse to zero
      rw [← hC0]
      simp only [div_zero, zero_mul, mul_zero, zero_add, add_zero, Real.sqrt_zero,
        Real.tanh_zero, mul_one]
      norm_num
    · -- positive recombination rate: the tanh step stays in [0, 1]
      have hipos : 0 < c.jmean / C := div_pos hjpos hCpos
      have hroot : (0:ℝ) ≤ Real.sqrt (c.jmean / C * (c.jmean / C + 4)) := Real.sqrt_nonneg _
      have harg2 : 0 ≤ 0.5 * C * Real.sqrt (c.jmean / C * (c.jmean / C + 4)) * delta := by
        have : (0:ℝ) ≤ 0.5 * C := by linarith
        exact mul_nonneg (mul_nonneg this hroot) hd
      obtain ⟨ht0, ht1⟩ := tanh_mem_Ico _ harg2
      obtain ⟨hlo, hhi⟩ := riccati_bounds (c.jmean / C)
        (Real.sqrt (c.jmean / C * (c.jmean / C + 4)))
        (Real.tanh (0.5 * C * Real.sqrt (c.jmean / C * (c.jmean / C + 4)) * delta))
        c.ft0 hipos rfl ht0 ht1 hf0 hf1
      exact ⟨by ring, by simp only; linarith, by simp only; linarith, hlo, hhi⟩

/-- Concrete instance for C1: a fully ionised, unilluminated cell. -/
def c1cell : Cell := { cell0 with ft0 := 1, nfac_MC := 0, alphaB := 1, rho := 1 }

/-- Witness for C1 at a concrete admissible input. -/
theorem C1_update_ion_unit_interval_witness :
    (0 ≤ c1cell.ft0 ∧ c1cell.ft0 ≤ 1 ∧ c1cell.ft0 = 1 - c1cell.nfac_MC ∧
      0 ≤ c1cell.jmean ∧ 0 ≤ c1cell.alphaB * (c1cell.rho * ((1:ℝ) / 1)) ∧ (0:ℝ) ≤ 1) ∧
      ((UPDATE_ION 1 1 c1cell 1).nfac_MC + (UPDATE_ION 1 1 c1cell 1).ifrac = 1 ∧
        0 ≤ (UPDATE_ION 1 1 c1cell 1).nfac_MC ∧
        (UPDATE_ION 1 1 c1cell 1).nfac_MC ≤ 1 ∧
        0 ≤ (UPDATE_ION 1 1 c1cell 1).ifrac ∧
        (UPDATE_ION 1 1 c1cell 1).ifrac ≤ 1) :=
  ⟨by norm_num [c1cell, cell0],
    C1_update_ion_unit_interval 1 1 1 c1cell (by norm_num [c1cell, cell0])
      (by norm_num [c1cell, cell0]) (by norm_num [c1cell, cell0])
      (by norm_num [c1cell, cell0]) (by norm_num [c1cell, cell0]) (by norm_num)⟩

/-- Invariant carried along the pure-recombination iteration of
`UPDATE_ION`: after `n` calls starting from a fully ionised cell with no
illumination, the carried state is `1 / (1 + n·ConB·delta)` and the other
inputs of the integrator are unchanged. -/
lemma recomb_invariant (udens hmass delta : ℝ) (c : Cell) (hj : c.jmean = 0)
    (hft : c.ft0 = 1) (hnf : c.nfac_MC = 0)
    (hC : 0 < c.alphaB * (c.rho * (udens / hmass))) (hd : 0 ≤ delta) :
    ∀ n : ℕ,
      ((fun x => UPDATE_ION udens hmass x delta)^[n] c).jmean = 0 ∧
      ((fun x => UPDATE_ION udens hmass x delta)^[n] c).alphaB = c.alphaB ∧
      ((fun x => UPDATE_ION udens hmass x delta)^[n] c).rho = c.rho ∧
      ((fun x => UPDATE_ION udens hmass x delta)^[n] c).ft0 =
        1 / (1 + (n : ℝ) * (c.alphaB * (c.rho * (udens / hmass)) * delta)) ∧
      ((fun x => UPDATE_ION udens hmass x delta)^[n] c).nfac_MC =
        1 - 1 / (1 + (n : ℝ) * (c.alphaB * (c.rho * (udens / hmass)) * delta)) := by
  intro n
  induction n with
  | zero =>
    refine ⟨hj, rfl, rfl, ?_, ?_⟩ <;> simp [hft, hnf]
  | succ n ih =>
    obtain ⟨ihj, iha, ihr, ihf, ihn⟩ := ih
    have hK : 0 ≤ c.alphaB * (c.rho * (udens / hmass)) * delta := mul_nonneg hC.le hd
    have hden : (0:ℝ) < 1 + (n : ℝ) * (c.alphaB * (c.rho * (udens / hmass)) * delta) := by
      have : (0:ℝ) ≤ (n : ℝ) * (c.alphaB * (c.rho * (udens / hmass)) * delta) :=
        mul_nonneg (Nat.cast_nonneg n) hK
      linarith
    have hftpos : 0 < ((fun x => UPDATE_ION udens hmass x delta)^[n] c).ft0 := by
      rw [ihf]; exact one_div_pos.mpr hden
    have hnfne1 : ((fun x => UPDATE_ION udens hmass x delta)^[n] c).nfac_MC ≠ 1 := by
      rw [ihn]
      intro h
      have : 1 / (1 + (n : ℝ) * (c.alphaB * (c.rho * (udens / hmass)) * delta)) = 0 := by
        linarith
      exact absurd this (one_div_ne_zero hden.ne')
    rw [Function.iterate_succ_apply']
    set p := (fun x => UPDATE_ION udens hmass x delta)^[n] c with hp
    have hbody : UPDATE_ION udens hmass p delta =
        { p with
            ifrac := 1 / (1 / p.ft0 + p.alphaB * (p.rho * (udens / hmass)) * delta),
            nfac_MC := 1 - 1 / (1 / p.ft0 + p.alphaB * (p.rho * (udens / hmass)) * delta),
            ft0 := 1 / (1 / p.ft0 + p.alphaB * (p.rho * (udens / hmass)) * delta) } := by
      simp only [UPDATE_ION]
      rw [if_neg hnfne1, if_pos (Or.inl ihj)]
    rw [hbody]
    have hstep : 1 / (1 / p.ft0 + p.alphaB * (p.rho * (udens / hmass)) * delta) =
        1 / (1 + ((n : ℝ) + 1) * (c.alphaB * (c.rho * (udens / hmass)) * delta)) := by
      rw [iha, ihr, ihf, one_div_one_div]
      congr 1
      ring
    refine ⟨ihj, iha, ihr, ?_, ?_⟩ <;>
      simp only [hstep, Nat.cast_succ]

/-- C7: the recombination-only branch of `UPDATE_ION` computes
`1 / (1/ft0 + ConB·delta)`, and iterating it from a fully ionised,
unilluminated cell yields `1 / (1 + n·ConB·delta)`, strictly decreasing
and converging to 0. -/
theorem C7_recombination_decay (udens hmass delta : ℝ) (hd : 0 < delta) :
    (∀ c : Cell, c.nfac_MC ≠ 1 → (c.jmean = 0 ∨ c.nfac_MC = 0) →
        (UPDATE_ION udens hmass c delta).ifrac =
          1 / (1 / c.ft0 + c.alphaB * (c.rho * (udens / hmass)) * delta)) ∧
      ∀ c : Cell, c.jmean = 0 → c.ft0 = 1 → c.nfac_MC = 0 →
        0 < c.alphaB * (c.rho * (udens / hmass)) →
        (∀ n : ℕ,
            ((fun x => UPDATE_ION udens hmass x delta)^[n + 1] c).ifrac =
              1 / (1 + ((n : ℝ) + 1) * (c.alphaB * (c.rho * (udens / hmass)) * delta))) ∧
          (∀ m n : ℕ, m < n →
            ((fun x => UPDATE_ION udens hmass x delta)^[n + 1] c).ifrac <
              ((fun x => UPDATE_ION udens hmass x delta)^[m + 1] c).ifrac) ∧
          Filter.Tendsto
            (fun n : ℕ => ((fun x => UPDATE_ION udens hmass x delta)^[n + 1] c).ifrac)
            Filter.atTop (nhds 0) := by
  constructor
  · intro c hne hb
    simp only [UPDATE_ION]
    rw [if_neg hne, if_pos hb]
  · intro c hj hft hnf hC
    have hK : 0 < c.alphaB * (c.rho * (udens / hmass)) * delta := mul_pos hC hd
    have hifrac : ∀ n : ℕ,
        ((fun x => UPDATE_ION udens hmass x delta)^[n + 1] c).ifrac =
          1 / (1 + ((n : ℝ) + 1) * (c.alphaB * (c.rho * (udens / hmass)) * delta)) := by
      intro n
      have hiter := recomb_invariant udens hmass delta c hj hft hnf hC hd.le (n + 1)
      have := UPDATE_ION_ifrac_eq_ft0 udens hmass delta
        ((fun x => UPDATE_ION udens hmass x delta)^[n] c)
      rw [Function.iterate_succ_apply'] at hiter ⊢
      rw [this, hiter.2.2.2.1]
      push_cast
      ring_nf
    have hdenpos : ∀ n : ℕ,
        (0:ℝ) < 1 + ((n : ℝ) + 1) * (c.alphaB * (c.rho * (udens / hmass)) * delta) := by
      intro n
      have : (0:ℝ) ≤ (n : ℝ) * (c.alphaB * (c.rho * (udens / hmass)) * delta) :=
        mul_nonneg (Nat.cast_nonneg n) hK.le
      nlinarith
    refine ⟨hifrac, ?_, ?_⟩
    · intro m n hmn
      rw [hifrac m, hifrac n]
      apply one_div_lt_one_div_of_lt (hdenpos m)
      have : (m : ℝ) < (n : ℝ) := Nat.cast_lt.mpr hmn
      nlinarith
    · have hto : Filter.Tendsto
          (fun n : ℕ => 1 + ((n : ℝ) + 1) * (c.alphaB * (c.rho * (udens / hmass)) * delta))
          Filter.atTop Filter.atTop := by
        apply Filter.tendsto_atTop_add_const_left
        apply Filter.Tendsto.atTop_mul_const hK
        exact Filter.tendsto_atTop_add_const_right _ _ tendsto_natCast_atTop_atTop
      have h0 := hto.inv_tendsto_atTop
      refine Filter.Tendsto.congr (fun n => ?_) h0
      rw [Pi.inv_apply, ← one_div, hifrac n]

/-- Witness for C7 at concrete constants. -/
theorem C7_recombination_decay_witness :
    (0:ℝ) < 1 ∧
      (∀ c : Cell, c.nfac_MC ≠ 1 → (c.jmean = 0 ∨ c.nfac_MC = 0) →
        (UPDATE_ION 1 1 c 1).ifrac =
          1 / (1 / c.ft0 + c.alphaB * (c.rho * ((1:ℝ) / 1)) * 1)) :=
  ⟨by norm_num, (C7_recombination_decay 1 1 1 (by norm_num)).1⟩

/-- Argument passed to the Lambert-W function by `u2_over_cs2`. -/
def lambertarg (rinv : ℝ) : ℝ := -Real.exp (3 + 4 * (Real.log rinv - rinv))

/-- `u2_over_cs2` from `Bondi.hpp`, parameterised over the Lambert-W
implementation `W` (branch index is the second argument, as in
`LambertW::lambert_w(x, branch)`). -/
def u2_over_cs2 (W : ℝ → ℤ → ℝ) (rinv : ℝ) : ℝ :=
  if rinv < 1 then -(W (lambertarg rinv) 0) else -(W (lambertarg rinv) (-1))

/-- A Lambert-W stub that returns 0 on every branch. -/
def lambertW_zero : ℝ → ℤ → ℝ := fun _ _ => 0

/-- A Lambert-W stub that agrees with `lambertW_zero` on the principal
branch but differs on the `-1` branch. -/
def lambertW_probe : ℝ → ℤ → ℝ := fun _ b => if b = 0 then 0 else 1

/-- Counterexample to C2: at `rinv = 2 > 1` (inside the Bondi radius) the
result of `u2_over_cs2` changes when only the `-1` branch of the
Lambert-W implementation changes, even though the two implementations
agree on the principal branch at the evaluated argument — so the
principal branch is not the one used inside the Bondi radius. -/
theorem C2_lambert_branch_counterexample :
    lambertW_zero (lambertarg 2) 0 = lambertW_probe (lambertarg 2) 0 ∧
      u2_over_cs2 lambertW_zero 2 ≠ u2_over_cs2 lambertW_probe 2 := by
  constructor
  · simp [lambertW_zero, lambertW_probe]
  · simp only [u2_over_cs2, lambertW_zero, lambertW_probe]
    rw [if_neg (by norm_num), if_neg (by norm_num)]
    norm_num

/-- C2 amended: `u2_over_cs2` uses the principal (0) branch of the
Lambert-W function for radii outside the Bondi radius (`rinv < 1`) and
the `-1` branch for radii at or inside it (`rinv ≥ 1`). -/
theorem C2_lambert_branch_amended (W : ℝ → ℤ → ℝ) (rinv : ℝ) :
    (rinv < 1 → u2_over_cs2 W rinv = -(W (lambertarg rinv) 0)) ∧
      (1 ≤ rinv → u2_over_cs2 W rinv = -(W (lambertarg rinv) (-1))) := by
  constructor
  · intro h
    simp only [u2_over_cs2]
    rw [if_pos h]
  · intro h
    simp only [u2_over_cs2]
    rw [if_neg (not_lt.mpr h)]

/-- Witness for the amended C2 on both sides of the Bondi radius. -/
theorem C2_lambert_branch_amended_witness :
    ((1:ℝ) / 2 < 1 ∧ u2_over_cs2 lambertW_zero (1 / 2) = -(lambertW_zero (lambertarg (1 / 2)) 0)) ∧
      ((1:ℝ) ≤ 2 ∧ u2_over_cs2 lambertW_zero 2 = -(lambertW_zero (lambertarg 2) (-1))) :=
  ⟨⟨by norm_num, (C2_lambert_branch_amended lambertW_zero (1 / 2)).1 (by norm_num)⟩,
    ⟨by norm_num, (C2_lambert_branch_amended lambertW_zero 2).2 (by norm_num)⟩⟩

/-- Real cube root (`std::cbrt`). -/
def cbrt (x : ℝ) : ℝ := if 0 ≤ x then x ^ ((1:ℝ) / 3) else -((-x) ^ ((1:ℝ) / 3))

/-- The weight loop shared by the ionisation setup and the first loop of
`get_ionisation_radius`: store the shell absorption weight
`Vshell·rho² = (rmax³ − rmin³)/3 · rho²` in the scratch field `nfac`. -/
def ionisation_weight_pass (c : Cell) : Cell :=
  { c with nfac :=
      (c.uplim * c.uplim * c.uplim - c.lowlim * c.lowlim * c.lowlim) / 3 * c.rho * c.rho }

/-- One step of the sequential budget scan (second loop of
`get_ionisation_radius`, self-consistent mode); the state is `(Cion, rion)`. -/
def rion_scan_step (s : ℝ × ℝ) (c : Cell) : ℝ × ℝ :=
  if 0 < s.1 then
    (s.1 - min 1 (s.1 / c.nfac) * c.nfac,
      if min 1 (s.1 / c.nfac) < 1 then
        (if 0 < min 1 (s.1 / c.nfac) then
          cbrt (min 1 (s.1 / c.nfac) * (c.uplim * c.uplim * c.uplim) +
            (1 - min 1 (s.1 / c.nfac)) * (c.lowlim * c.lowlim * c.lowlim))
        else s.2)
      else c.uplim)
  else s

/-- `get_ionisation_radius` (self-consistent mode): weight pass followed
by the sequential scan starting from the ionising budget `Cion0`. -/
def get_ionisation_radius_sc (cells : List Cell) (Cion0 : ℝ) : ℝ :=
  ((cells.map ionisation_weight_pass).foldl rion_scan_step (Cion0, 0)).2

/-- `get_bondi_Q_factor`: luminosity increase fitted to Keto (2003). -/
def get_bondi_Q_factor (M : ℝ) : ℝ := 7.96185873 * (M ^ (2.47692987 : ℝ) - 1) + 1

/-- `const_bondi_Q` from the ionisation setup: absorption weight summed
out to the requested ionisation radius `R`, taking the cube-volume
fraction of the straddling shell. -/
def const_bondi_Q (cells : List Cell) (R : ℝ) : ℝ :=
  (cells.map ionisation_weight_pass).foldl
    (fun q c =>
      if c.uplim < R then q + c.nfac
      else if c.lowlim < R then
        q + c.nfac * ((R * R * R - c.lowlim * c.lowlim * c.lowlim) /
          (c.uplim * c.uplim * c.uplim - c.lowlim * c.lowlim * c.lowlim))
      else q)
    0

/-- Strict monotonicity of the cube. -/
lemma cube_lt_cube {a b : ℝ} (h : a < b) : a * a * a < b * b * b := by
  have h3 : a ^ 3 < b ^ 3 := Odd.strictMono_pow (⟨1, by norm_num⟩ : Odd 3) h
  nlinarith [h3]

/-- The cube is injective on the reals. -/
lemma cube_inj {a b : ℝ} (h : a * a * a = b * b * b) : a = b := by
  rcases lt_trichotomy a b with hl | he | hg
  · exact absurd h (cube_lt_cube hl).ne
  · exact he
  · exact absurd h.symm (cube_lt_cube hg).ne

/-- The cube root inverts the cube of a nonnegative real. -/
lemma cbrt_cube {R : ℝ} (hR : 0 ≤ R) : cbrt (R * R * R) = R := by
  have h3 : 0 ≤ R * R * R := by positivity
  rw [cbrt, if_pos h3]
  have hpow : R * R * R = R ^ ((3:ℕ) : ℝ) := by
    rw [Real.rpow_natCast]; ring
  rw [hpow, ← Real.rpow_mul hR]
  norm_num

/-- A scan step with an exhausted budget leaves the state unchanged. -/
lemma rion_scan_zero (L : List Cell) : ∀ s : ℝ × ℝ, s.1 = 0 →
    L.foldl rion_scan_step s = s := by
  induction L with
  | nil => intro s _; rfl
  | cons c t ih =>
    intro s hs
    rw [List.foldl_cons, rion_scan_step, if_neg (by rw [hs]; exact lt_irrefl 0)]
    exact ih s hs

/-- Scanning through shells whose total weight is `extra` short of the
available budget consumes exactly the shells' weights, ends with budget
`extra`, and leaves `rion` at the last shell's upper boundary. -/
lemma rion_scan_consume (L : List Cell) : ∀ (extra r0 : ℝ), 0 ≤ extra →
    (∀ c ∈ L, 0 < c.nfac) →
    L.foldl rion_scan_step ((L.map Cell.nfac).sum + extra, r0) =
      (extra, (L.map Cell.uplim).getLastD r0) := by
  induction L with
  | nil => intro extra r0 _ _; simp
  | cons c t ih =>
    intro extra r0 hex hw
    have hwc : 0 < c.nfac := hw c (List.mem_cons_self c t)
    have hrest : 0 ≤ (t.map Cell.nfac).sum := by
      apply List.sum_nonneg
      intro x hx
      obtain ⟨d, hd, rfl⟩ := List.mem_map.mp hx
      exact (hw d (List.mem_cons_of_mem c hd)).le
    have htot : ((c :: t).map Cell.nfac).sum + extra = c.nfac + ((t.map Cell.nfac).sum + extra) := by
      rw [List.map_cons, List.sum_cons]; ring
    have hpos : 0 < ((c :: t).map Cell.nfac).sum + extra := by
      rw [htot]; linarith
    have hge : 1 ≤ (((c :: t).map Cell.nfac).sum + extra) / c.nfac := by
      rw [le_div_iff₀ hwc, htot]; linarith
    rw [List.foldl_cons, rion_scan_step, if_pos hpos, min_eq_left hge,
      if_neg (lt_irrefl 1)]
    have hnew : ((c :: t).map Cell.nfac).sum + extra - 1 * c.nfac =
        (t.map Cell.nfac).sum + extra := by
      rw [htot]; ring
    rw [hnew, ih extra c.uplim hex (fun d hd => hw d (List.mem_cons_of_mem c hd))]
    rw [List.map_cons, List.getLastD_cons]

/-- The last default-valued element of a mapped list is the image of the
last element. -/
lemma getLastD_map_eq {α β : Type} (f : α → β) (l : List α) (h : l ≠ []) (d : β) :
    (l.map f).getLastD d = f (l.getLast h) := by
  induction l generalizing d with
  | nil => exact absurd rfl h
  | cons a t ih =>
    cases t with
    | nil => rfl
    | cons b t2 =>
      rw [List.map_cons, List.getLastD_cons, List.getLast_cons (by simp)]
      exact ih (by simp) (f a)

/-- C3: if the budget at the start of the sequential scan equals exactly
the summed absorption weights of the first block of shells (each shell
geometrically valid with nonzero density), the returned ionisation
radius is exactly the last such shell's upper boundary. -/
theorem C3_scan_exact_shell_boundary (pre post : List Cell) (hpre : pre ≠ [])
    (hgrid : ∀ c ∈ pre, c.lowlim < c.uplim ∧ c.rho ≠ 0) :
    get_ionisation_radius_sc (pre ++ post)
      (((pre.map ionisation_weight_pass).map Cell.nfac).sum) =
      (pre.getLast hpre).uplim := by
  have hwpos : ∀ c ∈ pre.map ionisation_weight_pass, 0 < c.nfac := by
    intro c hc
    obtain ⟨d, hd, rfl⟩ := List.mem_map.mp hc
    obtain ⟨hlt, hrho⟩ := hgrid d hd
    show 0 < (d.uplim * d.uplim * d.uplim - d.lowlim * d.lowlim * d.lowlim) / 3 * d.rho * d.rho
    have h1 : 0 < d.uplim * d.uplim * d.uplim - d.lowlim * d.lowlim * d.lowlim :=
      sub_pos.mpr (cube_lt_cube hlt)
    have h2 : 0 < d.rho * d.rho := mul_self_pos.mpr hrho
    calc (0:ℝ) < (d.uplim * d.uplim * d.uplim - d.lowlim * d.lowlim * d.lowlim) / 3 *
          (d.rho * d.rho) := by positivity
      _ = (d.uplim * d.uplim * d.uplim - d.lowlim * d.lowlim * d.lowlim) / 3 *
          d.rho * d.rho := by ring
  have hprenil : pre.map ionisation_weight_pass ≠ [] := by
    simpa using hpre
  unfold get_ionisation_radius_sc
  rw [List.map_append, List.foldl_append]
  have hstart : (((pre.map ionisation_weight_pass).map Cell.nfac).sum, (0:ℝ)) =
      (((pre.map ionisation_weight_pass).map Cell.nfac).sum + 0, (0:ℝ)) := by
    rw [add_zero]
  rw [hstart, rion_scan_consume (pre.map ionisation_weight_pass) 0 0 le_rfl hwpos]
  rw [rion_scan_zero (post.map ionisation_weight_pass) _ rfl]
  show ((pre.map ionisation_weight_pass).map Cell.uplim).getLastD 0 = (pre.getLast hpre).uplim
  rw [getLastD_map_eq Cell.uplim (pre.map ionisation_weight_pass) hprenil 0]
  rw [List.getLast_map]
  rfl

/-- Concrete shells for the C3 witness. -/
def c3a : Cell := { cell0 with lowlim := 0, uplim := 1, rho := 1 }

/-- Second concrete shell for the C3 witness. -/
def c3b : Cell := { cell0 with lowlim := 1, uplim := 2, rho := 1 }

/-- Witness for C3 on a two-shell uniform-density grid. -/
theorem C3_scan_exact_shell_boundary_witness :
    (c3a.lowlim < c3a.uplim ∧ c3a.rho ≠ 0 ∧ c3b.lowlim < c3b.uplim ∧ c3b.rho ≠ 0) ∧
      get_ionisation_radius_sc ([c3a, c3b] ++ [])
        ((([c3a, c3b].map ionisation_weight_pass).map Cell.nfac).sum) = c3b.uplim := by
  constructor
  · norm_num [c3a, c3b, cell0]
  · have h := C3_scan_exact_shell_boundary [c3a, c3b] [] (by simp)
      (by intro c hc
          rcases List.mem_pair.mp hc with rfl | rfl <;> norm_num [c3a, c3b, cell0])
    simpa using h

/-- Non-strict monotonicity of the cube. -/
lemma cube_le_cube {a b : ℝ} (h : a ≤ b) : a * a * a ≤ b * b * b := by
  rcases h.lt_or_eq with hl | he
  · exact (cube_lt_cube hl).le
  · rw [he]

/-- The weight pass leaves the shell geometry unchanged. -/
@[simp] lemma weight_pass_uplim (c : Cell) : (ionisation_weight_pass c).uplim = c.uplim := rfl

/-- The weight pass leaves the shell geometry unchanged. -/
@[simp] lemma weight_pass_lowlim (c : Cell) : (ionisation_weight_pass c).lowlim = c.lowlim := rfl

/-- The weight pass leaves the density unchanged. -/
@[simp] lemma weight_pass_rho (c : Cell) : (ionisation_weight_pass c).rho = c.rho := rfl

/-- The value stored into `nfac` by the weight pass. -/
lemma weight_pass_nfac (c : Cell) : (ionisation_weight_pass c).nfac =
    (c.uplim * c.uplim * c.uplim - c.lowlim * c.lowlim * c.lowlim) / 3 * c.rho * c.rho := rfl

/-- Per-shell contribution to `const_bondi_Q`. -/
def ion_budget_contrib (R : ℝ) (c : Cell) : ℝ :=
  if c.uplim < R then c.nfac
  else if c.lowlim < R then
    c.nfac * ((R * R * R - c.lowlim * c.lowlim * c.lowlim) /
      (c.uplim * c.uplim * c.uplim - c.lowlim * c.lowlim * c.lowlim))
  else 0

/-- The budget fold of `const_bondi_Q` is the sum of the per-shell
contributions. -/
lemma foldl_budget_eq_sum (R : ℝ) : ∀ (L : List Cell) (q : ℝ),
    L.foldl (fun q c =>
      if c.uplim < R then q + c.nfac
      else if c.lowlim < R then
        q + c.nfac * ((R * R * R - c.lowlim * c.lowlim * c.lowlim) /
          (c.uplim * c.uplim * c.uplim - c.lowlim * c.lowlim * c.lowlim))
      else q) q = q + (L.map (ion_budget_contrib R)).sum := by
  intro L
  induction L with
  | nil => intro q; simp
  | cons c t ih =>
    intro q
    rw [List.foldl_cons, List.map_cons, List.sum_cons, ih]
    have hbody : (if c.uplim < R then q + c.nfac
        else if c.lowlim < R then
          q + c.nfac * ((R * R * R - c.lowlim * c.lowlim * c.lowlim) /
            (c.uplim * c.uplim * c.uplim - c.lowlim * c.lowlim * c.lowlim))
        else q) = q + ion_budget_contrib R c := by
      rw [ion_budget_contrib]
      split_ifs <;> ring
    rw [hbody]
    ring

/-- `get_bondi_Q_factor` is exactly 1 at the initial central mass. -/
lemma get_bondi_Q_factor_one : get_bondi_Q_factor 1 = 1 := by
  rw [get_bondi_Q_factor, Real.one_rpow]
  norm_num

/-- C9: running `get_ionisation_radius` on the same positive-density
grid whose weights defined `const_bondi_Q`, with unchanged central mass,
returns exactly the initial ionisation radius: the cube-root volume
interpolation inverts the fractional-volume weight of the setup. -/
theorem C9_setup_solver_round_trip (pre post : List Cell) (s : Cell) (R m : ℝ)
    (hm : m ≠ 0) (hR : 0 ≤ R)
    (hpre : ∀ c ∈ pre, c.uplim < R ∧ c.lowlim < c.uplim ∧ c.rho ≠ 0)
    (hs1 : s.lowlim < R) (hs2 : R ≤ s.uplim) (hs3 : s.rho ≠ 0)
    (hpost : ∀ c ∈ post, R ≤ c.lowlim ∧ c.lowlim ≤ c.uplim) :
    get_ionisation_radius_sc (pre ++ s :: post)
      (const_bondi_Q (pre ++ s :: post) R * get_bondi_Q_factor (m / m)) = R := by
  rw [div_self hm, get_bondi_Q_factor_one, mul_one]
  have hsu : s.lowlim < s.uplim := hs1.trans_le hs2
  -- weight of the straddling shell and its volume fraction
  set w := (s.uplim * s.uplim * s.uplim - s.lowlim * s.lowlim * s.lowlim) / 3 *
    s.rho * s.rho with hw
  set ifac := (R * R * R - s.lowlim * s.lowlim * s.lowlim) /
    (s.uplim * s.uplim * s.uplim - s.lowlim * s.lowlim * s.lowlim) with hifac
  have hd3 : 0 < s.uplim * s.uplim * s.uplim - s.lowlim * s.lowlim * s.lowlim :=
    sub_pos.mpr (cube_lt_cube hsu)
  have hwpos : 0 < w := by
    rw [hw]
    have h2 : 0 < s.rho * s.rho := mul_self_pos.mpr hs3
    calc (0:ℝ) < (s.uplim * s.uplim * s.uplim - s.lowlim * s.lowlim * s.lowlim) / 3 *
          (s.rho * s.rho) := by positivity
      _ = (s.uplim * s.uplim * s.uplim - s.lowlim * s.lowlim * s.lowlim) / 3 *
          s.rho * s.rho := by ring
  have hifac_pos : 0 < ifac :=
    div_pos (sub_pos.mpr (cube_lt_cube hs1)) hd3
  have hifac_le : ifac ≤ 1 := by
    rw [hifac, div_le_one hd3]
    have := cube_le_cube hs2
    linarith
  -- the budget of the setup equals the weights of `pre` plus the
  -- fractional weight of the straddling shell
  have hQ : const_bondi_Q (pre ++ s :: post) R =
      ((pre.map ionisation_weight_pass).map Cell.nfac).sum + w * ifac := by
    rw [const_bondi_Q, foldl_budget_eq_sum, zero_add, List.map_append, List.map_cons,
      List.map_append, List.map_cons, List.sum_append, List.sum_cons]
    have hprec : (pre.map ionisation_weight_pass).map (ion_budget_contrib R) =
        (pre.map ionisation_weight_pass).map Cell.nfac := by
      rw [List.map_map, List.map_map]
      apply List.map_congr_left
      intro c hc
      show ion_budget_contrib R (ionisation_weight_pass c) = (ionisation_weight_pass c).nfac
      simp only [ion_budget_contrib, weight_pass_uplim, weight_pass_lowlim]
      rw [if_pos (hpre c hc).1]
    have hsc : ion_budget_contrib R (ionisation_weight_pass s) = w * ifac := by
      simp only [ion_budget_contrib, weight_pass_uplim, weight_pass_lowlim, weight_pass_nfac]
      rw [if_neg (not_lt.mpr hs2), if_pos hs1]
    have hpostc : ((post.map ionisation_weight_pass).map (ion_budget_contrib R)).sum = 0 := by
      apply List.sum_eq_zero
      intro x hx
      rw [List.map_map] at hx
      obtain ⟨c, hc, rfl⟩ := List.mem_map.mp hx
      obtain ⟨h1, h2⟩ := hpost c hc
      show ion_budget_contrib R (ionisation_weight_pass c) = 0
      simp only [ion_budget_contrib, weight_pass_uplim, weight_pass_lowlim]
      rw [if_neg (not_lt.mpr (h1.trans h2)), if_neg (not_lt.mpr h1)]
    rw [hprec, hsc, hpostc]
    ring
  -- the scan consumes pre, then the fractional shell pins `rion` to R
  have hwpre : ∀ c ∈ pre.map ionisation_weight_pass, 0 < c.nfac := by
    intro c hc
    obtain ⟨d, hd, rfl⟩ := List.mem_map.mp hc
    obtain ⟨_, hlt, hrho⟩ := hpre d hd
    show 0 < (d.uplim * d.uplim * d.uplim - d.lowlim * d.lowlim * d.lowlim) / 3 * d.rho * d.rho
    have h1 : 0 < d.uplim * d.uplim * d.uplim - d.lowlim * d.lowlim * d.lowlim :=
      sub_pos.mpr (cube_lt_cube hlt)
    have h2 : 0 < d.rho * d.rho := mul_self_pos.mpr hrho
    calc (0:ℝ) < (d.uplim * d.uplim * d.uplim - d.lowlim * d.lowlim * d.lowlim) / 3 *
          (d.rho * d.rho) := by positivity
      _ = (d.uplim * d.uplim * d.uplim - d.lowlim * d.lowlim * d.lowlim) / 3 *
          d.rho * d.rho := by ring
  rw [get_ionisation_radius_sc, hQ, List.map_append, List.map_cons, List.foldl_append,
    rion_scan_consume (pre.map ionisation_weight_pass) (w * ifac) 0
      (mul_nonneg hwpos.le hifac_pos.le) hwpre,
    List.foldl_cons]
  have hww : (ionisation_weight_pass s).nfac = w := rfl
  have hdiv : w * ifac / (ionisation_weight_pass s).nfac = ifac := by
    rw [hww]
    exact mul_div_cancel_left₀ ifac hwpos.ne'
  have hstep : rion_scan_step (w * ifac, ((pre.map ionisation_weight_pass).map Cell.uplim).getLastD 0)
      (ionisation_weight_pass s) = (0, R) := by
    rw [rion_scan_step, if_pos (by positivity : (0:ℝ) < w * ifac)]
    simp only [hdiv]
    rcases hifac_le.lt_or_eq with hlt1 | heq1
    · rw [min_eq_right hifac_le, if_pos hlt1, if_pos hifac_pos]
      have hcube : ifac * ((ionisation_weight_pass s).uplim * (ionisation_weight_pass s).uplim *
            (ionisation_weight_pass s).uplim) +
          (1 - ifac) * ((ionisation_weight_pass s).lowlim * (ionisation_weight_pass s).lowlim *
            (ionisation_weight_pass s).lowlim) = R * R * R := by
        show ifac * (s.uplim * s.uplim * s.uplim) + (1 - ifac) *
          (s.lowlim * s.lowlim * s.lowlim) = R * R * R
        rw [hifac]
        field_simp
        ring
      rw [hcube, cbrt_cube hR, hww]
      have : w * ifac - ifac * w = 0 := by ring
      rw [this]
    · rw [← heq1, min_self, if_neg (lt_irrefl ifac), hww]
      have hR3 : R * R * R = s.uplim * s.uplim * s.uplim := by
        have := heq1
        rw [hifac, div_eq_one_iff_eq hd3.ne'] at this
        linarith
      have hRu : R = s.uplim := cube_inj hR3
      have : w * ifac - ifac * w = 0 := by ring
      rw [this]
      show ((0:ℝ), (ionisation_weight_pass s).uplim) = (0, R)
      rw [hRu]
      rfl
  rw [hstep, rion_scan_zero (post.map ionisation_weight_pass) (0, R) rfl]

/-- Straddling shell for the C9 witness: `R = 3/2` sits inside it. -/
def c9s : Cell := { cell0 with lowlim := 1, uplim := 2, rho := 1 }

/-- Witness for C9: a two-shell grid with the initial ionisation radius
inside the second shell. -/
theorem C9_setup_solver_round_trip_witness :
    ((5:ℝ) ≠ 0 ∧ (0:ℝ) ≤ 3 / 2 ∧ c3a.uplim < 3 / 2 ∧ c3a.lowlim < c3a.uplim ∧ c3a.rho ≠ 0 ∧
      c9s.lowlim < 3 / 2 ∧ (3:ℝ) / 2 ≤ c9s.uplim ∧ c9s.rho ≠ 0) ∧
      get_ionisation_radius_sc ([c3a] ++ c9s :: [])
        (const_bondi_Q ([c3a] ++ c9s :: []) (3 / 2) * get_bondi_Q_factor (5 / 5)) = 3 / 2 :=
  ⟨by norm_num [c3a, c9s, cell0],
    C9_setup_solver_round_trip [c3a] [] c9s (3 / 2) 5 (by norm_num) (by norm_num)
      (by intro c hc
          rcases List.mem_singleton.mp hc with rfl
          norm_num [c3a, cell0])
      (by norm_num [c9s, cell0]) (by norm_num [c9s, cell0]) (by norm_num [c9s, cell0])
      (by intro c hc; exact absurd hc (List.not_mem_nil c))⟩

/-- State threaded by reference through `PROPAGATE`/`ICT`: the cell
array, the packet bank, and the packet registers (`cell`, `taurem`,
`rcurrent`, `lrem`, bank-write index `stored`). -/
structure MCState where
  cells : ℤ → Cell
  PStore : ℤ → BankEntry
  cell : ℤ
  taurem : ℝ
  rcurrent : ℝ
  lrem : ℝ
  stored : ℤ

/-- Bank capacity used by the Monte Carlo step (`int sizebank=10000000`). -/
def sizebank : ℤ := 10000000

/-- The end-of-step overflow check `if (nbank>sizebank){break;}`. -/
def mc_bank_overflow_halt (nbank : ℤ) : Bool := decide (sizebank < nbank)

/-- Add a travelled path length to the `length` accumulator of one cell. -/
def addLength (cells : ℤ → Cell) (i : ℤ) (d : ℝ) : ℤ → Cell :=
  fun j => if j = i then { cells i with length := (cells i).length + d } else cells j

/-- `BANK`: store one packet in slot `stored` of the bank and advance the
bank-write index. -/
def BANK (PStore : ℤ → BankEntry) (cell : ℤ) (taurem radius : ℝ) (stored : ℤ) :
    (ℤ → BankEntry) × ℤ :=
  (fun j => if j = stored then
      { PStore stored with futureCell := cell, futureDistance := radius, futureTaurem := taurem }
    else PStore j,
    stored + 1)

/-- The divisor of the `taulength` computation, identical in `PROPAGATE`
and `ICT`: `rho · (UNIT_DENSITY_IN_SI/HYDROGEN_MASS_IN_SI) · nfac_MC · sigma`. -/
def tau_divisor (udens hmass : ℝ) (c : Cell) : ℝ :=
  c.rho * (udens / hmass) * c.nfac_MC * c.sigma

/-- The total optical depth of a full cell crossing in `PROPAGATE`. -/
def propagate_taucell (udens hmass ulen : ℝ) (c : Cell) : ℝ :=
  c.sigma * c.V * ulen * c.rho * (udens / hmass) * c.nfac_MC

/-- The optical depth of the remaining part of a cell in `ICT`. -/
def ict_taucell (udens hmass ulen : ℝ) (c : Cell) (rcurrent : ℝ) : ℝ :=
  c.sigma * (c.V * ulen - rcurrent) * c.rho * (udens / hmass) * c.nfac_MC

/-- `PROPAGATE` from `Bondi.hpp`: move one packet through its current
cell; it either crosses the cell, is absorbed inside it, or is banked
when the light-travel budget runs out. -/
def PROPAGATE (udens hmass ulen : ℝ) (s : MCState) : MCState :=
  let c := s.cells s.cell
  if s.taurem > propagate_taucell udens hmass ulen c ∧ s.lrem > c.V * ulen then
    { s with cells := addLength s.cells s.cell (c.V * ulen),
             taurem := s.taurem - propagate_taucell udens hmass ulen c,
             lrem := s.lrem - c.V * ulen,
             cell := s.cell + 1 }
  else
    if s.taurem / tau_divisor udens hmass c ≤ s.lrem then
      { s with cells := addLength s.cells s.cell (s.taurem / tau_divisor udens hmass c),
               taurem := 0 }
    else
      if s.stored ≤ 10000000 then
        { s with cells := addLength s.cells s.cell s.lrem,
                 taurem := s.taurem - tau_divisor udens hmass c * s.lrem,
                 PStore := (BANK s.PStore s.cell
                   (s.taurem - tau_divisor udens hmass c * s.lrem) s.lrem s.stored).1,
                 stored := (BANK s.PStore s.cell
                   (s.taurem - tau_divisor udens hmass c * s.lrem) s.lrem s.stored).2,
                 lrem := 0 }
      else
        { s with cells := addLength s.cells s.cell s.lrem,
                 taurem := s.taurem - tau_divisor udens hmass c * s.lrem,
                 stored := s.stored + 1,
                 lrem := 0 }

/-- `ICT` from `Bondi.hpp`: resume a banked packet through the remaining
part of the cell it was stored in. -/
def ICT (udens hmass ulen : ℝ) (s : MCState) : MCState :=
  let c := s.cells s.cell
  if s.taurem > ict_taucell udens hmass ulen c s.rcurrent ∧
      s.lrem > c.V * ulen - s.rcurrent then
    { s with cells := addLength s.cells s.cell (c.V * ulen - s.rcurrent),
             taurem := s.taurem - ict_taucell udens hmass ulen c s.rcurrent,
             lrem := s.lrem - (c.V * ulen - s.rcurrent),
             cell := s.cell + 1,
             rcurrent := 0 }
  else
    if s.taurem / tau_divisor udens hmass c ≤ s.lrem then
      { s with cells := addLength s.cells s.cell (s.taurem / tau_divisor udens hmass c),
               taurem := 0 }
    else
      if s.stored ≤ 10000000 then
        { s with cells := addLength s.cells s.cell s.lrem,
                 taurem := s.taurem - tau_divisor udens hmass c * s.lrem,
                 rcurrent := s.rcurrent + s.lrem,
                 PStore := (BANK s.PStore s.cell
                   (s.taurem - tau_divisor udens hmass c * s.lrem)
                   (s.rcurrent + s.lrem) s.stored).1,
                 stored := (BANK s.PStore s.cell
                   (s.taurem - tau_divisor udens hmass c * s.lrem)
                   (s.rcurrent + s.lrem) s.stored).2,
                 lrem := 0 }
      else
        { s with cells := addLength s.cells s.cell s.lrem,
                 taurem := s.taurem - tau_divisor udens hmass c * s.lrem,
                 rcurrent := s.rcurrent + s.lrem,
                 stored := s.stored + 1,
                 lrem := 0 }

/-- Reading back the cell whose accumulator was bumped. -/
lemma addLength_self (cells : ℤ → Cell) (i : ℤ) (d : ℝ) :
    ((addLength cells i d) i).length = (cells i).length + d := by
  rw [addLength, if_pos rfl]

/-- C8: in every branch of `PROPAGATE` and of `ICT`, the packet's
remaining optical depth decreases by exactly
`sigma·n_H·nfac_MC` times the path length added to the current cell's
`length` accumulator. -/
theorem C8_optical_depth_exact (udens hmass ulen : ℝ) (s : MCState)
    (hk : 0 < tau_divisor udens hmass (s.cells s.cell)) :
    (PROPAGATE udens hmass ulen s).taurem =
      s.taurem - tau_divisor udens hmass (s.cells s.cell) *
        (((PROPAGATE udens hmass ulen s).cells s.cell).length - (s.cells s.cell).length) ∧
      (ICT udens hmass ulen s).taurem =
        s.taurem - tau_divisor udens hmass (s.cells s.cell) *
          (((ICT udens hmass ulen s).cells s.cell).length - (s.cells s.cell).length) := by
  have hd := hk.ne'
  constructor
  · simp only [PROPAGATE]
    split_ifs with h1 h2 h3 <;> simp only [addLength_self]
    · rw [propagate_taucell, tau_divisor]; ring
    · rw [show (s.cells s.cell).length + s.taurem / tau_divisor udens hmass (s.cells s.cell) -
          (s.cells s.cell).length = s.taurem / tau_divisor udens hmass (s.cells s.cell) from by
            ring,
        mul_div_cancel₀ _ hd]
      ring
    · ring
    · ring
  · simp only [ICT]
    split_ifs with h1 h2 h3 <;> simp only [addLength_self]
    · rw [ict_taucell, tau_divisor]; ring
    · rw [show (s.cells s.cell).length + s.taurem / tau_divisor udens hmass (s.cells s.cell) -
          (s.cells s.cell).length = s.taurem / tau_divisor udens hmass (s.cells s.cell) from by
            ring,
        mul_div_cancel₀ _ hd]
      ring
    · ring
    · ring

/-- A default bank entry. -/
def bank0 : BankEntry := ⟨0, 0, 0, 0, 0, 0⟩

/-- A cell with unit cross-section, density, width and neutral fraction. -/
def c8cell : Cell := { cell0 with sigma := 1, rho := 1, nfac_MC := 1, V := 1 }

/-- A concrete transport state over a uniform grid of `c8cell`s. -/
def c8state : MCState :=
  { cells := fun _ => c8cell, PStore := fun _ => bank0, cell := 1,
    taurem := 2, rcurrent := 0, lrem := 3, stored := 0 }

/-- Witness for C8 at a concrete state with positive divisor. -/
theorem C8_optical_depth_exact_witness :
    0 < tau_divisor 1 1 (c8state.cells c8state.cell) ∧
      ((PROPAGATE 1 1 1 c8state).taurem =
        c8state.taurem - tau_divisor 1 1 (c8state.cells c8state.cell) *
          (((PROPAGATE 1 1 1 c8state).cells c8state.cell).length -
            (c8state.cells c8state.cell).length) ∧
        (ICT 1 1 1 c8state).taurem =
          c8state.taurem - tau_divisor 1 1 (c8state.cells c8state.cell) *
            (((ICT 1 1 1 c8state).cells c8state.cell).length -
              (c8state.cells c8state.cell).length)) :=
  ⟨by norm_num [tau_divisor, c8state, c8cell, cell0],
    C8_optical_depth_exact 1 1 1 c8state (by norm_num [tau_divisor, c8state, c8cell, cell0])⟩

/-- C4 amended: a banked-branch `PROPAGATE` call writes the packet's
cell, remaining optical depth and in-cell distance into bank slot
`stored` when `stored` is within the write bound, silently skips the
write when `stored` is beyond it, and always advances the bank-event
count, so that the end-of-step check halts whenever the count exceeds
`sizebank`. -/
theorem C4_bank_overflow_amended (udens hmass ulen : ℝ) (s : MCState)
    (h1 : ¬(s.taurem > propagate_taucell udens hmass ulen (s.cells s.cell) ∧
        s.lrem > (s.cells s.cell).V * ulen))
    (h2 : ¬(s.taurem / tau_divisor udens hmass (s.cells s.cell) ≤ s.lrem)) :
    (s.stored ≤ 10000000 →
        ((PROPAGATE udens hmass ulen s).PStore s.stored).futureCell = s.cell ∧
        ((PROPAGATE udens hmass ulen s).PStore s.stored).futureTaurem =
          s.taurem - tau_divisor udens hmass (s.cells s.cell) * s.lrem ∧
        ((PROPAGATE udens hmass ulen s).PStore s.stored).futureDistance = s.lrem) ∧
      (10000000 < s.stored → (PROPAGATE udens hmass ulen s).PStore = s.PStore) ∧
      (PROPAGATE udens hmass ulen s).stored = s.stored + 1 ∧
      ∀ nbank : ℤ, sizebank < nbank → mc_bank_overflow_halt nbank = true := by
  refine ⟨?_, ?_, ?_, ?_⟩
  · intro hst
    simp only [PROPAGATE]
    rw [if_neg h1, if_neg h2, if_pos hst]
    simp [BANK]
  · intro hst
    simp only [PROPAGATE]
    rw [if_neg h1, if_neg h2, if_neg (not_le.mpr hst)]
  · simp only [PROPAGATE]
    rw [if_neg h1, if_neg h2]
    split_ifs with h3
    · rfl
    · rfl
  · intro nbank hn
    rw [mc_bank_overflow_halt, decide_eq_true_eq]
    exact hn

/-- The banked-branch state for the C4 counterexample: the bank-write
index already exceeds the write bound. -/
def c4state : MCState :=
  { cells := fun _ => c8cell, PStore := fun _ => bank0, cell := 1,
    taurem := 1 / 2, rcurrent := 0, lrem := 1 / 4, stored := 10000001 }

/-- Counterexample to C4 as stated: at `c4state` the packet transitions
to the Banked state (its light-travel budget is exhausted with positive
optical depth left, and the bank-event count is advanced past the halt
threshold), yet no Bank entry is written — the bank is unchanged, so the
packet's state is silently dropped even though the simulation will halt
at the end of the step. -/
theorem C4_bank_overflow_counterexample :
    (PROPAGATE 1 1 1 c4state).PStore = c4state.PStore ∧
      (PROPAGATE 1 1 1 c4state).lrem = 0 ∧
      0 < (PROPAGATE 1 1 1 c4state).taurem ∧
      (PROPAGATE 1 1 1 c4state).stored = c4state.stored + 1 ∧
      sizebank < (PROPAGATE 1 1 1 c4state).stored := by
  have h1 : ¬(c4state.taurem > propagate_taucell 1 1 1 (c4state.cells c4state.cell) ∧
      c4state.lrem > (c4state.cells c4state.cell).V * 1) := by
    norm_num [c4state, c8cell, cell0, propagate_taucell]
  have h2 : ¬(c4state.taurem / tau_divisor 1 1 (c4state.cells c4state.cell) ≤ c4state.lrem) := by
    norm_num [c4state, c8cell, cell0, tau_divisor]
  have h3 : ¬(c4state.stored ≤ 10000000) := by norm_num [c4state]
  simp only [PROPAGATE]
  rw [if_neg h1, if_neg h2, if_neg h3]
  refine ⟨rfl, rfl, ?_, rfl, ?_⟩
  · show 0 < c4state.taurem - tau_divisor 1 1 (c4state.cells c4state.cell) * c4state.lrem
    norm_num [c4state, c8cell, cell0, tau_divisor]
  · show sizebank < c4state.stored + 1
    norm_num [c4state, sizebank]

/-- A banked-branch state with an in-bound bank-write index. -/
def c4wstate : MCState :=
  { cells := fun _ => c8cell, PStore := fun _ => bank0, cell := 1,
    taurem := 1 / 2, rcurrent := 0, lrem := 1 / 4, stored := 0 }

/-- Witness for the amended C4: a banked-branch call with an in-bound
write index stores the packet's cell, optical depth and distance. -/
theorem C4_bank_overflow_amended_witness :
    (¬(c4wstate.taurem > propagate_taucell 1 1 1 (c4wstate.cells c4wstate.cell) ∧
        c4wstate.lrem > (c4wstate.cells c4wstate.cell).V * 1) ∧
      ¬(c4wstate.taurem / tau_divisor 1 1 (c4wstate.cells c4wstate.cell) ≤ c4wstate.lrem)) ∧
      ((c4wstate.stored ≤ 10000000 →
          ((PROPAGATE 1 1 1 c4wstate).PStore c4wstate.stored).futureCell = c4wstate.cell ∧
          ((PROPAGATE 1 1 1 c4wstate).PStore c4wstate.stored).futureTaurem =
            c4wstate.taurem - tau_divisor 1 1 (c4wstate.cells c4wstate.cell) * c4wstate.lrem ∧
          ((PROPAGATE 1 1 1 c4wstate).PStore c4wstate.stored).futureDistance = c4wstate.lrem) ∧
        (10000000 < c4wstate.stored → (PROPAGATE 1 1 1 c4wstate).PStore = c4wstate.PStore) ∧
        (PROPAGATE 1 1 1 c4wstate).stored = c4wstate.stored + 1 ∧
        ∀ nbank : ℤ, sizebank < nbank → mc_bank_overflow_halt nbank = true) := by
  have h1 : ¬(c4wstate.taurem > propagate_taucell 1 1 1 (c4wstate.cells c4wstate.cell) ∧
      c4wstate.lrem > (c4wstate.cells c4wstate.cell).V * 1) := by
    norm_num [c4wstate, c8cell, cell0, propagate_taucell]
  have h2 : ¬(c4wstate.taurem / tau_divisor 1 1 (c4wstate.cells c4wstate.cell) ≤ c4wstate.lrem) := by
    norm_num [c4wstate, c8cell, cell0, tau_divisor]
  exact ⟨⟨h1, h2⟩, C4_bank_overflow_amended 1 1 1 c4wstate h1 h2⟩

/-- The degenerate input of C10: a fully ionised cell. -/
def c10cell : Cell := { cell0 with sigma := 1, rho := 1, nfac_MC := 0, V := 1 }

/-- A state in which the packet cannot cross the cell and the divisor of
`taulength` vanishes. -/
def c10state : MCState :=
  { cells := fun _ => c10cell, PStore := fun _ => bank0, cell := 1,
    taurem := 1 / 2, rcurrent := 0, lrem := 1 / 2, stored := 0 }

/-- C10: under `sigma·rho·nfac_MC > 0` (and positive unit constants) the
`taulength` divisor shared by `PROPAGATE` and `ICT` is nonzero; and at a
fully ionised cell with positive remaining optical depth and a
light-travel budget not exceeding the cell path, the non-crossing branch
is reached while that divisor is exactly zero. -/
theorem C10_tau_divisor_totality :
    (∀ (udens hmass : ℝ) (c : Cell), 0 < udens → 0 < hmass →
        0 < c.sigma * c.rho * c.nfac_MC → tau_divisor udens hmass c ≠ 0) ∧
      (tau_divisor 1 1 (c10state.cells c10state.cell) = 0 ∧
        0 < c10state.taurem ∧
        ¬(c10state.taurem > propagate_taucell 1 1 1 (c10state.cells c10state.cell) ∧
            c10state.lrem > (c10state.cells c10state.cell).V * 1)) := by
  constructor
  · intro udens hmass c hu hh hpos
    have hexp : tau_divisor udens hmass c = udens / hmass * (c.sigma * c.rho * c.nfac_MC) := by
      rw [tau_divisor]; ring
    rw [hexp]
    exact (mul_pos (div_pos hu hh) hpos).ne'
  · refine ⟨?_, ?_, ?_⟩
    · norm_num [c10state, c10cell, cell0, tau_divisor]
    · norm_num [c10state]
    · norm_num [c10state, c10cell, cell0, propagate_taucell]

/-- Witness for C10 at concrete positive inputs. -/
theorem C10_tau_divisor_totality_witness :
    ((0:ℝ) < 1 ∧ 0 < c8cell.sigma * c8cell.rho * c8cell.nfac_MC) ∧
      tau_divisor 1 1 c8cell ≠ 0 :=
  ⟨⟨by norm_num, by norm_num [c8cell, cell0]⟩,
    C10_tau_divisor_totality.1 1 1 c8cell (by norm_num) (by norm_num)
      (by norm_num [c8cell, cell0])⟩

/-- `bondi_S` from the ionisation setup: the maximal transition slope
`3/(2·width)` (0 when the width is not positive). -/
def bondi_S (w : ℝ) : ℝ := if 0 < w then 3 / (2 * w) else 0

/-- `bondi_A` from the ionisation setup: `−16·S³/27`. -/
def bondi_A (w : ℝ) : ℝ := -16 * bondi_S w * bondi_S w * bondi_S w / 27

/-- `neutral_fraction_integral_function` from `Bondi.hpp`: the exact
antiderivative `60·∫ f(r)·r² dr` of the smooth transition polynomial. -/
def neutral_fraction_integral_function (A S rion r : ℝ) : ℝ :=
  (r * (r * r)) * (10 * (r * (r * r)) * A - 36 * (r * r) * A * rion +
    45 * r * A * (rion * rion) + 15 * r * S - 20 * A * (rion * (rion * rion)) -
    20 * rion * S + 10)

/-- `get_neutral_fraction_integral` from `Bondi.hpp`. -/
def get_neutral_fraction_integral (A S rion rmin rmax : ℝ) : ℝ :=
  (neutral_fraction_integral_function A S rion rmax -
    neutral_fraction_integral_function A S rion rmin) / 20

/-- `get_neutral_fraction` from `Bondi.hpp` (smooth transition mode). -/
def get_neutral_fraction (rmin rmax rion rion_min rion_max S A : ℝ) : ℝ :=
  if rmax < rion_min then 0
  else if rmin < rion_min ∧ rmax ≥ rion_min then
    get_neutral_fraction_integral A S rion rion_min rmax /
      (rmax * rmax * rmax - rmin * rmin * rmin)
  else if rmin ≥ rion_min ∧ rmax ≤ rion_max then
    get_neutral_fraction_integral A S rion rmin rmax /
      (rmax * rmax * rmax - rmin * rmin * rmin)
  else if rmin < rion_max ∧ rmax > rion_max then
    (get_neutral_fraction_integral A S rion rmin rion_max +
      (rmax * rmax * rmax - rion_max * rion_max * rion_max)) /
      (rmax * rmax * rmax - rmin * rmin * rmin)
  else 1

/-- The smooth transition polynomial
`f(r) = A·(r−rion)³ + S·(r−rion) + 1/2` whose antiderivative is
`neutral_fraction_integral_function`. -/
def transition_poly (A S rion r : ℝ) : ℝ :=
  A * (r - rion) ^ 3 + S * (r - rion) + 1 / 2

/-- Factorisation of the transition polynomial around its lower root. -/
lemma poly_factor_lower (S rion r : ℝ) :
    transition_poly (-16 * S * S * S / 27) S rion r =
      16 / 27 * (S * (r - rion) + 3 / 4) ^ 2 * (3 / 2 - S * (r - rion)) := by
  rw [transition_poly]; ring

/-- Factorisation of the transition polynomial around its upper root. -/
lemma poly_factor_upper (S rion r : ℝ) :
    1 - transition_poly (-16 * S * S * S / 27) S rion r =
      16 / 27 * (S * (r - rion) - 3 / 4) ^ 2 * (S * (r - rion) + 3 / 2) := by
  rw [transition_poly]; ring

/-- Difference of two values of the transition polynomial. -/
lemma poly_sub (S rion x y : ℝ) :
    transition_poly (-16 * S * S * S / 27) S rion y -
      transition_poly (-16 * S * S * S / 27) S rion x =
      (S * (y - rion) - S * (x - rion)) *
        (1 - 16 / 27 * (S * (x - rion) * (S * (x - rion)) +
          S * (x - rion) * (S * (y - rion)) + S * (y - rion) * (S * (y - rion)))) := by
  rw [transition_poly, transition_poly]; ring

/-- `bondi_A` in terms of `bondi_S`. -/
lemma bondi_A_eq (w : ℝ) :
    bondi_A w = -16 * bondi_S w * bondi_S w * bondi_S w / 27 := rfl

/-- The scaled coordinate `S·(r−rion)` stays in `[−3/4, 3/4]` across the
transition interval. -/
lemma scaled_coord_bounds (w rion r : ℝ) (hw : 0 < w)
    (h1 : rion - 0.5 * w ≤ r) (h2 : r ≤ rion + 0.5 * w) :
    -(3 / 4) ≤ bondi_S w * (r - rion) ∧ bondi_S w * (r - rion) ≤ 3 / 4 := by
  rw [bondi_S, if_pos hw]
  constructor
  · rw [div_mul_eq_mul_div, le_div_iff₀ (by linarith : (0:ℝ) < 2 * w)]
    nlinarith
  · rw [div_mul_eq_mul_div, div_le_iff₀ (by linarith : (0:ℝ) < 2 * w)]
    nlinarith

/-- The transition polynomial stays in `[0, 1]` across the transition
interval. -/
lemma transition_poly_bounds (w rion r : ℝ) (hw : 0 < w)
    (h1 : rion - 0.5 * w ≤ r) (h2 : r ≤ rion + 0.5 * w) :
    0 ≤ transition_poly (bondi_A w) (bondi_S w) rion r ∧
      transition_poly (bondi_A w) (bondi_S w) rion r ≤ 1 := by
  obtain ⟨hu1, hu2⟩ := scaled_coord_bounds w rion r hw h1 h2
  rw [bondi_A_eq]
  constructor
  · rw [poly_factor_lower]
    apply mul_nonneg (mul_nonneg (by norm_num) (sq_nonneg _))
    linarith
  · have h := poly_factor_upper (bondi_S w) rion r
    nlinarith [sq_nonneg (bondi_S w * (r - rion) - 3 / 4)]

/-- The transition polynomial is monotone across the transition interval. -/
lemma transition_poly_mono (w rion : ℝ) (hw : 0 < w) {x y : ℝ}
    (hx1 : rion - 0.5 * w ≤ x) (hy2 : y ≤ rion + 0.5 * w) (hxy : x ≤ y) :
    transition_poly (bondi_A w) (bondi_S w) rion x ≤
      transition_poly (bondi_A w) (bondi_S w) rion y := by
  have hx2 : x ≤ rion + 0.5 * w := hxy.trans hy2
  have hy1 : rion - 0.5 * w ≤ y := hx1.trans hxy
  obtain ⟨hux1, hux2⟩ := scaled_coord_bounds w rion x hw hx1 hx2
  obtain ⟨huy1, huy2⟩ := scaled_coord_bounds w rion y hw hy1 hy2
  have hS : 0 ≤ bondi_S w := by
    rw [bondi_S, if_pos hw]; positivity
  rw [← sub_nonneg, bondi_A_eq, poly_sub]
  apply mul_nonneg
  · nlinarith
  · nlinarith [mul_nonneg (sub_nonneg.2 hux2) (sub_nonneg.2 huy2),
      mul_nonneg (by linarith : (0:ℝ) ≤ bondi_S w * (x - rion) + 3 / 4)
        (by linarith : (0:ℝ) ≤ bondi_S w * (y - rion) + 3 / 4),
      sq_nonneg (bondi_S w * (x - rion) - bondi_S w * (y - rion)),
      sq_nonneg (bondi_S w * (x - rion) + bondi_S w * (y - rion))]

/-- The transition polynomial vanishes at the lower edge. -/
lemma poly_at_lower (w rion : ℝ) (hw : 0 < w) :
    transition_poly (bondi_A w) (bondi_S w) rion (rion - 0.5 * w) = 0 := by
  have hu : bondi_S w * (rion - 0.5 * w - rion) = -(3 / 4) := by
    rw [bondi_S, if_pos hw]
    field_simp
    ring
  rw [bondi_A_eq, poly_factor_lower, hu]
  norm_num

/-- The transition polynomial is 1 at the upper edge. -/
lemma poly_at_upper (w rion : ℝ) (hw : 0 < w) :
    transition_poly (bondi_A w) (bondi_S w) rion (rion + 0.5 * w) = 1 := by
  have hu : bondi_S w * (rion + 0.5 * w - rion) = 3 / 4 := by
    rw [bondi_S, if_pos hw]
    field_simp
    ring
  have h := poly_factor_upper (bondi_S w) rion (rion + 0.5 * w)
  rw [hu] at h
  rw [bondi_A_eq]
  nlinarith [h]

/-- The closed-form antiderivative of `Bondi.hpp` differentiates to
`60·f(r)·r²` where `f` is the transition polynomial. -/
lemma nfif_hasDerivAt (A S R x : ℝ) :
    HasDerivAt (fun r => neutral_fraction_integral_function A S R r)
      (60 * transition_poly A S R x * (x * x)) x := by
  have h6 := hasDerivAt_pow 6 x
  have h5 := hasDerivAt_pow 5 x
  have h4 := hasDerivAt_pow 4 x
  have h3 := hasDerivAt_pow 3 x
  have hP := (((h6.const_mul (10 * A)).sub (h5.const_mul (36 * A * R))).add
    (h4.const_mul (45 * A * (R * R) + 15 * S))).add
    (h3.const_mul (-(20 * A * (R * (R * R))) - 20 * R * S + 10))
  have hfun : (fun r : ℝ =>
      10 * A * r ^ 6 - 36 * A * R * r ^ 5 + (45 * A * (R * R) + 15 * S) * r ^ 4 +
        (-(20 * A * (R * (R * R))) - 20 * R * S + 10) * r ^ 3) =
      fun r => neutral_fraction_integral_function A S R r := by
    funext r
    rw [neutral_fraction_integral_function]
    ring
  rw [hfun] at hP
  convert hP using 1
  rw [transition_poly]
  norm_num
  ring

/-- The exact shell integral is at most the polynomial value at the right
end times the cubic volume difference. -/
lemma integral_le_right (w rion a b : ℝ) (hw : 0 < w)
    (ha : rion - 0.5 * w ≤ a) (hab : a ≤ b) (hb : b ≤ rion + 0.5 * w) :
    get_neutral_fraction_integral (bondi_A w) (bondi_S w) rion a b ≤
      transition_poly (bondi_A w) (bondi_S w) rion b * (b * b * b - a * a * a) := by
  have hder : ∀ x : ℝ, HasDerivAt (fun r =>
      transition_poly (bondi_A w) (bondi_S w) rion b * r ^ 3 -
        neutral_fraction_integral_function (bondi_A w) (bondi_S w) rion r / 20)
      (transition_poly (bondi_A w) (bondi_S w) rion b * (3 * x ^ 2) -
        60 * transition_poly (bondi_A w) (bondi_S w) rion x * (x * x) / 20) x := by
    intro x
    have h1 : HasDerivAt (fun r : ℝ => r ^ 3) (3 * x ^ 2) x := by
      simpa using hasDerivAt_pow 3 x
    exact (h1.const_mul _).sub
      ((nfif_hasDerivAt (bondi_A w) (bondi_S w) rion x).div_const 20)
  have hmono : MonotoneOn (fun r =>
      transition_poly (bondi_A w) (bondi_S w) rion b * r ^ 3 -
        neutral_fraction_integral_function (bondi_A w) (bondi_S w) rion r / 20)
      (Set.Icc a b) := by
    apply monotoneOn_of_deriv_nonneg (convex_Icc a b)
    · exact (continuous_iff_continuousAt.mpr fun x => (hder x).continuousAt).continuousOn
    · intro x _
      exact (hder x).differentiableAt.differentiableWithinAt
    · intro x hx
      rw [interior_Icc] at hx
      rw [(hder x).deriv]
      have hfx : transition_poly (bondi_A w) (bondi_S w) rion x ≤
          transition_poly (bondi_A w) (bondi_S w) rion b :=
        transition_poly_mono w rion hw (ha.trans hx.1.le) hb hx.2.le
      nlinarith [mul_nonneg (sub_nonneg.2 hfx) (sq_nonneg x)]
  have h := hmono (Set.left_mem_Icc.mpr hab) (Set.right_mem_Icc.mpr hab) hab
  rw [get_neutral_fraction_integral]
  nlinarith [h]

/-- The exact shell integral is at least the polynomial value at the left
end times the cubic volume difference. -/
lemma integral_ge_left (w rion a b : ℝ) (hw : 0 < w)
    (ha : rion - 0.5 * w ≤ a) (hab : a ≤ b) (hb : b ≤ rion + 0.5 * w) :
    transition_poly (bondi_A w) (bondi_S w) rion a * (b * b * b - a * a * a) ≤
      get_neutral_fraction_integral (bondi_A w) (bondi_S w) rion a b := by
  have hder : ∀ x : ℝ, HasDerivAt (fun r =>
      neutral_fraction_integral_function (bondi_A w) (bondi_S w) rion r / 20 -
        transition_poly (bondi_A w) (bondi_S w) rion a * r ^ 3)
      (60 * transition_poly (bondi_A w) (bondi_S w) rion x * (x * x) / 20 -
        transition_poly (bondi_A w) (bondi_S w) rion a * (3 * x ^ 2)) x := by
    intro x
    have h1 : HasDerivAt (fun r : ℝ => r ^ 3) (3 * x ^ 2) x := by
      simpa using hasDerivAt_pow 3 x
    exact ((nfif_hasDerivAt (bondi_A w) (bondi_S w) rion x).div_const 20).sub
      (h1.const_mul _)
  have hmono : MonotoneOn (fun r =>
      neutral_fraction_integral_function (bondi_A w) (bondi_S w) rion r / 20 -
        transition_poly (bondi_A w) (bondi_S w) rion a * r ^ 3)
      (Set.Icc a b) := by
    apply monotoneOn_of_deriv_nonneg (convex_Icc a b)
    · exact (continuous_iff_continuousAt.mpr fun x => (hder x).continuousAt).continuousOn
    · intro x _
      exact (hder x).differentiableAt.differentiableWithinAt
    · intro x hx
      rw [interior_Icc] at hx
      rw [(hder x).deriv]
      have hfx : transition_poly (bondi_A w) (bondi_S w) rion a ≤
          transition_poly (bondi_A w) (bondi_S w) rion x :=
        transition_poly_mono w rion hw ha (hx.2.le.trans hb) hx.1.le
      nlinarith [mul_nonneg (sub_nonneg.2 hfx) (sq_nonneg x)]
  have h := hmono (Set.left_mem_Icc.mpr hab) (Set.right_mem_Icc.mpr hab) hab
  rw [get_neutral_fraction_integral]
  nlinarith [h]

/-- The pointwise transition profile implied by the smooth-mode
evaluator: 0 below the transition window, the cubic inside, 1 above. -/
def fbar (w rion r : ℝ) : ℝ :=
  if r ≤ rion - 0.5 * w then 0
  else if r < rion + 0.5 * w then transition_poly (bondi_A w) (bondi_S w) rion r
  else 1

/-- The pointwise profile lies in `[0, 1]`. -/
lemma fbar_unit_range (w rion r : ℝ) (hw : 0 < w) :
    0 ≤ fbar w rion r ∧ fbar w rion r ≤ 1 := by
  rw [fbar]
  split_ifs with h1 h2
  · norm_num
  · exact transition_poly_bounds w rion r hw (not_le.mp h1).le h2.le
  · norm_num

/-- Inside the transition window the pointwise profile is the cubic. -/
lemma fbar_eq_poly (w rion r : ℝ) (hw : 0 < w)
    (h1 : rion - 0.5 * w ≤ r) (h2 : r ≤ rion + 0.5 * w) :
    fbar w rion r = transition_poly (bondi_A w) (bondi_S w) rion r := by
  rw [fbar]
  split_ifs with ha hb
  · rw [show r = rion - 0.5 * w from le_antisymm ha h1, poly_at_lower w rion hw]
  · rfl
  · rw [show r = rion + 0.5 * w from le_antisymm h2 (not_lt.mp hb), poly_at_upper w rion hw]

/-- The pointwise profile is monotone non-decreasing. -/
lemma fbar_mono (w rion : ℝ) (hw : 0 < w) {x y : ℝ} (hxy : x ≤ y) :
    fbar w rion x ≤ fbar w rion y := by
  by_cases hx1 : x ≤ rion - 0.5 * w
  · rw [show fbar w rion x = 0 from by rw [fbar, if_pos hx1]]
    exact (fbar_unit_range w rion y hw).1
  · by_cases hx2 : x < rion + 0.5 * w
    · rw [show fbar w rion x = transition_poly (bondi_A w) (bondi_S w) rion x from by
        rw [fbar, if_neg hx1, if_pos hx2]]
      by_cases hy2 : y < rion + 0.5 * w
      · rw [show fbar w rion y = transition_poly (bondi_A w) (bondi_S w) rion y from by
          rw [fbar, if_neg (by linarith [not_le.mp hx1]), if_pos hy2]]
        exact transition_poly_mono w rion hw (not_le.mp hx1).le hy2.le hxy
      · rw [show fbar w rion y = 1 from by
          rw [fbar, if_neg (by linarith [not_le.mp hx1]), if_neg hy2]]
        exact (transition_poly_bounds w rion x hw (not_le.mp hx1).le hx2.le).2
    · have hx2' := not_lt.mp hx2
      rw [show fbar w rion x = 1 from by rw [fbar, if_neg hx1, if_neg hx2],
        show fbar w rion y = 1 from by
          rw [fbar, if_neg (by linarith), if_neg (by linarith)]]

/-- The smooth-mode shell average lies between the pointwise profile
values at the two shell boundaries. -/
lemma nf_between (w rion rmin rmax : ℝ) (hw : 0 < w) (hr : rmin < rmax)
    (hnarrow : rmax - rmin ≤ w) :
    fbar w rion rmin ≤
      get_neutral_fraction rmin rmax rion (rion - 0.5 * w) (rion + 0.5 * w)
        (bondi_S w) (bondi_A w) ∧
      get_neutral_fraction rmin rmax rion (rion - 0.5 * w) (rion + 0.5 * w)
        (bondi_S w) (bondi_A w) ≤ fbar w rion rmax := by
  have hd : 0 < rmax * rmax * rmax - rmin * rmin * rmin := sub_pos.mpr (cube_lt_cube hr)
  rw [get_neutral_fraction]
  split_ifs with h1 h2 h3 h4
  · -- shell entirely below the transition window
    refine ⟨?_, (fbar_unit_range w rion rmax hw).1⟩
    rw [show fbar w rion rmin = 0 from by rw [fbar, if_pos (by linarith)]]
  · -- shell straddles the lower edge
    have hbhi : rmax ≤ rion + 0.5 * w := by linarith [h2.1]
    have hI_ge := integral_ge_left w rion (rion - 0.5 * w) rmax hw le_rfl h2.2 hbhi
    have hI_le := integral_le_right w rion (rion - 0.5 * w) rmax hw le_rfl h2.2 hbhi
    rw [poly_at_lower w rion hw, zero_mul] at hI_ge
    constructor
    · rw [show fbar w rion rmin = 0 from by rw [fbar, if_pos h2.1.le]]
      exact div_nonneg hI_ge hd.le
    · rw [fbar_eq_poly w rion rmax hw h2.2 hbhi, div_le_iff₀ hd]
      have hpb := (transition_poly_bounds w rion rmax hw h2.2 hbhi).1
      have hlo3 : rmin * rmin * rmin ≤
          (rion - 0.5 * w) * (rion - 0.5 * w) * (rion - 0.5 * w) := (cube_lt_cube h2.1).le
      nlinarith [hI_le, mul_nonneg hpb (sub_nonneg.2 hlo3)]
  · -- shell fully inside the transition window
    have hI_ge := integral_ge_left w rion rmin rmax hw h3.1 hr.le h3.2
    have hI_le := integral_le_right w rion rmin rmax hw h3.1 hr.le h3.2
    constructor
    · rw [fbar_eq_poly w rion rmin hw h3.1 (by linarith [h3.2]), le_div_iff₀ hd]
      linarith [hI_ge]
    · rw [fbar_eq_poly w rion rmax hw (by linarith [h3.1]) h3.2, div_le_iff₀ hd]
      linarith [hI_le]
  · -- shell straddles the upper edge
    have hminlo : rion - 0.5 * w ≤ rmin := by
      by_contra hcon
      exact h2 ⟨not_le.mp hcon, not_lt.mp h1⟩
    have hI_ge := integral_ge_left w rion rmin (rion + 0.5 * w) hw hminlo h4.1.le le_rfl
    have hI_le := integral_le_right w rion rmin (rion + 0.5 * w) hw hminlo h4.1.le le_rfl
    rw [poly_at_upper w rion hw, one_mul] at hI_le
    have hcube3 : (rion + 0.5 * w) * (rion + 0.5 * w) * (rion + 0.5 * w) ≤
        rmax * rmax * rmax := (cube_lt_cube h4.2).le
    constructor
    · rw [fbar_eq_poly w rion rmin hw hminlo h4.1.le, le_div_iff₀ hd]
      have hle1 := (transition_poly_bounds w rion rmin hw hminlo h4.1.le).2
      nlinarith [hI_ge, mul_nonneg (sub_nonneg.2 hle1) (sub_nonneg.2 hcube3)]
    · rw [show fbar w rion rmax = 1 from by
        rw [fbar, if_neg (by linarith), if_neg (not_lt.mpr h4.2.le)]]
      rw [div_le_one hd]
      linarith [hI_le]
  · -- shell entirely above the transition window
    have hminlo : rion - 0.5 * w ≤ rmin := by
      by_contra hcon
      exact h2 ⟨not_le.mp hcon, not_lt.mp h1⟩
    have hhi : rion + 0.5 * w < rmax := by
      by_contra hcon
      exact h3 ⟨hminlo, not_lt.mp hcon⟩
    have hminhi : rion + 0.5 * w ≤ rmin := by
      by_contra hcon
      exact h4 ⟨not_le.mp hcon, hhi⟩
    refine ⟨(fbar_unit_range w rion rmin hw).2, ?_⟩
    rw [show fbar w rion rmax = 1 from by
      rw [fbar, if_neg (by linarith), if_neg (by linarith)]]

/-- The smooth-mode shell average lies in `[0, 1]`. -/
lemma nf_unit_range (w rion rmin rmax : ℝ) (hw : 0 < w) (hr : rmin < rmax)
    (hnarrow : rmax - rmin ≤ w) :
    0 ≤ get_neutral_fraction rmin rmax rion (rion - 0.5 * w) (rion + 0.5 * w)
        (bondi_S w) (bondi_A w) ∧
      get_neutral_fraction rmin rmax rion (rion - 0.5 * w) (rion + 0.5 * w)
        (bondi_S w) (bondi_A w) ≤ 1 := by
  obtain ⟨hl, hu⟩ := nf_between w rion rmin rmax hw hr hnarrow
  exact ⟨(fbar_unit_range w rion rmin hw).1.trans hl,
    hu.trans (fbar_unit_range w rion rmax hw).2⟩

/-- Shells at or below the lower transition edge evaluate to exactly 0. -/
lemma nf_exact_zero (w rion rmin rmax : ℝ) (hr : rmin < rmax)
    (hz : rmax ≤ rion - 0.5 * w) :
    get_neutral_fraction rmin rmax rion (rion - 0.5 * w) (rion + 0.5 * w)
      (bondi_S w) (bondi_A w) = 0 := by
  rw [get_neutral_fraction]
  rcases hz.lt_or_eq with hlt | heq
  · rw [if_pos hlt]
  · rw [if_neg (by rw [heq]; exact lt_irrefl _), if_pos ⟨heq ▸ hr, heq.ge⟩, heq,
      get_neutral_fraction_integral, sub_self, zero_div, zero_div]

/-- Shells at or above the upper transition edge evaluate to exactly 1. -/
lemma nf_exact_one (w rion rmin rmax : ℝ) (hw : 0 < w) (hr : rmin < rmax)
    (ho : rion + 0.5 * w ≤ rmin) :
    get_neutral_fraction rmin rmax rion (rion - 0.5 * w) (rion + 0.5 * w)
      (bondi_S w) (bondi_A w) = 1 := by
  have hlo : rion - 0.5 * w < rmin := by linarith
  rw [get_neutral_fraction, if_neg (not_lt.mpr (by linarith)),
    if_neg (fun hc => (not_lt.mpr hlo.le) hc.1),
    if_neg (fun hc => (not_le.mpr (by linarith)) hc.2),
    if_neg (fun hc => (not_lt.mpr ho) hc.1)]

/-- C6: for narrow shells, the smooth-mode `get_neutral_fraction` (with
the `do_ionisation` parameters `bondi_S`, `bondi_A` and the window
`rion ± width/2`) lies in `[0, 1]`, is exactly 0 for shells at or below
`rion − width/2`, exactly 1 for shells at or above `rion + width/2`, and
is monotone non-decreasing in radius across shells. -/
theorem C6_neutral_fraction_profile (w rion : ℝ) (hw : 0 < w) :
    (∀ rmin rmax : ℝ, rmin < rmax → rmax - rmin ≤ w →
        0 ≤ get_neutral_fraction rmin rmax rion (rion - 0.5 * w) (rion + 0.5 * w)
            (bondi_S w) (bondi_A w) ∧
          get_neutral_fraction rmin rmax rion (rion - 0.5 * w) (rion + 0.5 * w)
            (bondi_S w) (bondi_A w) ≤ 1) ∧
      (∀ rmin rmax : ℝ, rmin < rmax → rmax - rmin ≤ w → rmax ≤ rion - 0.5 * w →
        get_neutral_fraction rmin rmax rion (rion - 0.5 * w) (rion + 0.5 * w)
          (bondi_S w) (bondi_A w) = 0) ∧
      (∀ rmin rmax : ℝ, rmin < rmax → rmax - rmin ≤ w → rion + 0.5 * w ≤ rmin →
        get_neutral_fraction rmin rmax rion (rion - 0.5 * w) (rion + 0.5 * w)
          (bondi_S w) (bondi_A w) = 1) ∧
      ∀ a1 b1 a2 b2 : ℝ, a1 < b1 → b1 - a1 ≤ w → a2 < b2 → b2 - a2 ≤ w → b1 ≤ a2 →
        get_neutral_fraction a1 b1 rion (rion - 0.5 * w) (rion + 0.5 * w)
            (bondi_S w) (bondi_A w) ≤
          get_neutral_fraction a2 b2 rion (rion - 0.5 * w) (rion + 0.5 * w)
            (bondi_S w) (bondi_A w) := by
  refine ⟨fun rmin rmax hr hn => nf_unit_range w rion rmin rmax hw hr hn,
    fun rmin rmax hr _ hz => nf_exact_zero w rion rmin rmax hr hz,
    fun rmin rmax hr _ ho => nf_exact_one w rion rmin rmax hw hr ho,
    fun a1 b1 a2 b2 h1 hn1 h2 hn2 h12 => ?_⟩
  calc get_neutral_fraction a1 b1 rion (rion - 0.5 * w) (rion + 0.5 * w)
        (bondi_S w) (bondi_A w) ≤ fbar w rion b1 :=
      (nf_between w rion a1 b1 hw h1 hn1).2
    _ ≤ fbar w rion a2 := fbar_mono w rion hw h12
    _ ≤ get_neutral_fraction a2 b2 rion (rion - 0.5 * w) (rion + 0.5 * w)
        (bondi_S w) (bondi_A w) := (nf_between w rion a2 b2 hw h2 hn2).1

/-- Witness for C6: unit transition width around `rion = 0`, with one
shell below the window and one shell above it. -/
theorem C6_neutral_fraction_profile_witness :
    ((0:ℝ) < 1 ∧ (-2:ℝ) < -1 ∧ (-1:ℝ) - (-2) ≤ 1 ∧ (1:ℝ) < 2 ∧ (2:ℝ) - 1 ≤ 1 ∧
      (-1:ℝ) ≤ 0 - 0.5 * 1 ∧ (0:ℝ) + 0.5 * 1 ≤ 1 ∧ (-1:ℝ) ≤ 1) ∧
      ((0 ≤ get_neutral_fraction (-2) (-1) 0 (0 - 0.5 * 1) (0 + 0.5 * 1)
          (bondi_S 1) (bondi_A 1) ∧
        get_neutral_fraction (-2) (-1) 0 (0 - 0.5 * 1) (0 + 0.5 * 1)
          (bondi_S 1) (bondi_A 1) ≤ 1) ∧
        get_neutral_fraction (-2) (-1) 0 (0 - 0.5 * 1) (0 + 0.5 * 1)
          (bondi_S 1) (bondi_A 1) = 0 ∧
        get_neutral_fraction 1 2 0 (0 - 0.5 * 1) (0 + 0.5 * 1)
          (bondi_S 1) (bondi_A 1) = 1 ∧
        get_neutral_fraction (-2) (-1) 0 (0 - 0.5 * 1) (0 + 0.5 * 1)
            (bondi_S 1) (bondi_A 1) ≤
          get_neutral_fraction 1 2 0 (0 - 0.5 * 1) (0 + 0.5 * 1)
            (bondi_S 1) (bondi_A 1)) :=
  ⟨by norm_num,
    (C6_neutral_fraction_profile 1 0 one_pos).1 (-2) (-1) (by norm_num) (by norm_num),
    (C6_neutral_fraction_profile 1 0 one_pos).2.1 (-2) (-1) (by norm_num) (by norm_num)
      (by norm_num),
    (C6_neutral_fraction_profile 1 0 one_pos).2.2.1 1 2 (by norm_num) (by norm_num)
      (by norm_num),
    (C6_neutral_fraction_profile 1 0 one_pos).2.2.2 (-2) (-1) 1 2 (by norm_num)
      (by norm_num) (by norm_num) (by norm_num) (by norm_num)⟩

/-- A geometrically large shell for the C5 counterexample. -/
def c5cell : Cell := { cell0 with lowlim := 0, uplim := 3, rho := 1 }

/-- Counterexample to C5 as stated: during the weight pass the `nfac`
field holds the absorption weight `Vshell·rho² = 9 > 1`, so `nfac` is not
confined to `[0, 1]` at every point of execution. -/
theorem C5_nfac_scratch_counterexample : 1 < (ionisation_weight_pass c5cell).nfac := by
  rw [weight_pass_nfac]
  norm_num [c5cell, cell0]

/-- C5 amended: during the setup and the first pass of
`get_ionisation_radius`, `nfac` holds the unnormalised absorption weight
`Vshell·rho²` (which may exceed 1); the `[0, 1]` bound holds for the
values written by the final neutral-fraction loop (smooth mode, narrow
shells). -/
theorem C5_nfac_range_amended :
    (∀ c : Cell, (ionisation_weight_pass c).nfac =
        (c.uplim * c.uplim * c.uplim - c.lowlim * c.lowlim * c.lowlim) / 3 *
          c.rho * c.rho) ∧
      ∀ w rion rmin rmax : ℝ, 0 < w → rmin < rmax → rmax - rmin ≤ w →
        0 ≤ get_neutral_fraction rmin rmax rion (rion - 0.5 * w) (rion + 0.5 * w)
            (bondi_S w) (bondi_A w) ∧
          get_neutral_fraction rmin rmax rion (rion - 0.5 * w) (rion + 0.5 * w)
            (bondi_S w) (bondi_A w) ≤ 1 :=
  ⟨weight_pass_nfac,
    fun w rion rmin rmax hw hr hn => nf_unit_range w rion rmin rmax hw hr hn⟩

/-- Witness for the amended C5. -/
theorem C5_nfac_range_amended_witness :
    ((0:ℝ) < 1 ∧ (3:ℝ) < 4 ∧ (4:ℝ) - 3 ≤ 1) ∧
      (0 ≤ get_neutral_fraction 3 4 0 (0 - 0.5 * 1) (0 + 0.5 * 1)
          (bondi_S 1) (bondi_A 1) ∧
        get_neutral_fraction 3 4 0 (0 - 0.5 * 1) (0 + 0.5 * 1)
          (bondi_S 1) (bondi_A 1) ≤ 1) :=
  ⟨by norm_num,
    C5_nfac_range_amended.2 1 0 3 4 (by norm_num) (by norm_num) (by norm_num)⟩

end HydroBondi
